import Mathlib

/-!
# Verification of the SorairoRadar emotion-scoring and history core

Shallow embedding of the scoring engine (`analyze`) and the history store
(`appendWithLimit`, `commitHistory`, `deleteHistoryItem`, history
export/import) of the SorairoRadar app.

Modelling conventions:
* JS strings are `List Char` (Unicode code points); `charCodeAt` is modelled
  on the UTF-16 code-unit sequence, as in JS.
* JS floating-point numbers are modelled as exact rationals `ℚ`.
* JS `Map` insertion-order semantics are modelled with association lists.
* The two JS `while` loops (substring scanning, cap eviction) are modelled
  with an explicit fuel bounded by the list/string length, which is
  sufficient because every iteration strictly shrinks the remaining work
  (for substring scanning this holds for nonempty search terms; on an empty
  term the JS original does not terminate at all).
* `JSON.stringify`/`JSON.parse` are modelled at the level of the JSON value
  tree (`Json` below): serialisation to character strings is abstracted away
  and `parse ∘ stringify` is the identity on that tree.
-/

set_option maxHeartbeats 1000000
set_option maxRecDepth 100000

/-- The five fixed categories 愛情, 切なさ, 悲しみ, 甘え, 欲 (closed enumeration). -/
inductive Category where
  | aijou
  | setsuna
  | kanashimi
  | amae
  | yoku
deriving DecidableEq, Fintype, Repr

/-- The canonical category order used throughout the source. -/
def CATS : List Category := [.aijou, .setsuna, .kanashimi, .amae, .yoku]

/-- The five Japanese display names, used as JSON keys for `TopTerms`. -/
def catName : Category → List Char
  | .aijou => "愛情".toList
  | .setsuna => "切なさ".toList
  | .kanashimi => "悲しみ".toList
  | .amae => "甘え".toList
  | .yoku => "欲".toList

def catOfName (s : List Char) : Option Category :=
  if s = catName .aijou then some .aijou
  else if s = catName .setsuna then some .setsuna
  else if s = catName .kanashimi then some .kanashimi
  else if s = catName .amae then some .amae
  else if s = catName .yoku then some .yoku
  else none

/-- `interface Lexeme { term; weight?; categories? }`. -/
structure Lexeme where
  term : List Char
  weight : Option ℚ := none
  categories : Option (List Category) := none
deriving DecidableEq, Repr

/-- `type Lexicon = Record<Category, Lexeme[]>`. -/
def Lexicon : Type := Category → List Lexeme

/-! ## String utilities -/

/-- Does `pat` match at the head of `s`? (building block for `indexOf`/`includes`). -/
def headMatches : List Char → List Char → Bool
  | [], _ => true
  | _ :: _, [] => false
  | a :: as, b :: bs => a = b && headMatches as bs

/-- JS `hay.includes(pat)`. -/
def containsSub (hay pat : List Char) : Bool :=
  (List.range (hay.length + 1)).any (fun i => headMatches pat (hay.drop i))

/-- JS `text.indexOf(term, start)` for a nonempty `term` (`none` for `-1`). -/
def indexOfFrom (text term : List Char) (start : Nat) : Option Nat :=
  (List.range (text.length + 1)).find? (fun i => start ≤ i && headMatches term (text.drop i))

/-- The scanning loop of `countSubstringIndices`, with fuel; each found match
advances the cursor past itself. -/
def countSubstringIndicesAux (text term : List Char) : Nat → Nat → List Nat
  | 0, _ => []
  | fuel + 1, start =>
    match indexOfFrom text term start with
    | none => []
    | some idx => idx :: countSubstringIndicesAux text term fuel (idx + term.length)

/-- `countSubstringIndices(text, term)`: every left-to-right occurrence index,
advancing the search cursor past each match. -/
def countSubstringIndices (text term : List Char) : List Nat :=
  countSubstringIndicesAux text term (text.length + 1) 0

/-- Number of global regex matches of a plain word `w` in `t`
(`(t.match(new RegExp(w, "g")) || []).length`). -/
def countOcc (t w : List Char) : Nat :=
  (countSubstringIndices t w).length

/-- ECMAScript WhiteSpace ∪ LineTerminator code points, as trimmed by `String.prototype.trim`. -/
def isJsWs (c : Char) : Bool :=
  c.toNat ∈ [0x9, 0xA, 0xB, 0xC, 0xD, 0x20, 0xA0, 0x1680, 0x2000, 0x2001, 0x2002,
    0x2003, 0x2004, 0x2005, 0x2006, 0x2007, 0x2008, 0x2009, 0x200A, 0x2028, 0x2029,
    0x202F, 0x205F, 0x3000, 0xFEFF]

/-- JS `text.trim()`. -/
def jsTrim (s : List Char) : List Char :=
  ((s.dropWhile isJsWs).reverse.dropWhile isJsWs).reverse

/-! ## Hashing (`simpleHash`, `hashBase36`) -/

/-- Wrap an integer to signed 32-bit, as JS `| 0` does. -/
def toInt32 (n : Int) : Int := (n + 2 ^ 31) % 2 ^ 32 - 2 ^ 31

/-- The UTF-16 code units of a code point (JS `charCodeAt` walks these). -/
def utf16Units (c : Char) : List Nat :=
  if c.toNat < 0x10000 then [c.toNat]
  else [0xD800 + (c.toNat - 0x10000) / 0x400, 0xDC00 + (c.toNat - 0x10000) % 0x400]

/-- One step of the rolling hash: `h = ((h << 5) - h + code) | 0`
(the shift itself already wraps to 32 bits in JS). -/
def simpleHashStep (h : Int) (code : Nat) : Int :=
  toInt32 (toInt32 (h * 32) - h + code)

/-- `simpleHash(s)`: polynomial 32-bit rolling hash, absolute value. -/
def simpleHash (s : List Char) : Nat :=
  (((s.map utf16Units).flatten).foldl simpleHashStep 0).natAbs

def base36Digit (n : Nat) : Char :=
  if n < 10 then Char.ofNat (48 + n) else Char.ofNat (87 + n)

/-- Base-36 rendering, with fuel (`n + 1` is ample since `n / 36` shrinks). -/
def toBase36Aux : Nat → Nat → List Char
  | 0, _ => []
  | fuel + 1, n =>
    if n < 36 then [base36Digit n]
    else toBase36Aux fuel (n / 36) ++ [base36Digit (n % 36)]

/-- JS `n.toString(36)` for a natural number. -/
def toBase36 (n : Nat) : List Char := toBase36Aux (n + 1) n

/-- `hashBase36(s) = simpleHash(s).toString(36)`. -/
def hashBase36 (s : List Char) : List Char := toBase36 (simpleHash s)

/-! ## Modifier word lists and emoji table -/

def INTENSIFIERS : List (List Char) :=
  ["とても", "すごく", "めっちゃ", "超絶", "超", "かなり", "本当に", "ほんとに",
    "めちゃくちゃ"].map String.toList

def DIMINISHERS : List (List Char) :=
  ["少し", "ちょっと", "やや", "まあまあ", "すこし"].map String.toList

def NEGATIONS : List (List Char) :=
  ["じゃない", "ではない", "ない", "ぬ", "ず"].map String.toList

def EMOJI_BOOST : Category → List (List Char)
  | .aijou => ["❤️", "💕", "😘", "💖", "🥰"].map String.toList
  | .setsuna => ["🥺", "😢"].map String.toList
  | .kanashimi => ["😢", "😭"].map String.toList
  | .amae => ["🤲", "🤗"].map String.toList
  | .yoku => ["🔥", "💦", "😏"].map String.toList

def bondBoosters : List (List Char) :=
  ["あなた", "君", "妻", "夫", "二人", "ずっと一緒", "約束", "誓い"].map String.toList

/-- `windowHas(wordList, windowText)`: some word occurs in the window. -/
def windowHas (wordList : List (List Char)) (windowText : List Char) : Bool :=
  wordList.any (fun w => containsSub windowText w)

/-! ## The scoring engine `analyze` -/

/-- The inner per-term contribution map (`Map<string, number>` of one category). -/
abbrev InnerMap : Type := List (List Char × ℚ)

/-- The `details` ledger (`Map<Category, Map<string, number>>`). -/
abbrev DetailsMap : Type := List (Category × InnerMap)

/-- `m.get(k) || 0` (first entry with the key, `0` when absent). -/
def innerGet : InnerMap → List Char → ℚ
  | [], _ => 0
  | p :: rest, k => if p.1 = k then p.2 else innerGet rest k

/-- `m.set(k, v)`: update in place if the key exists, else append (JS `Map` order). -/
def innerSet : InnerMap → List Char → ℚ → InnerMap
  | [], k, v => [(k, v)]
  | p :: rest, k, v => if p.1 = k then (k, v) :: rest else p :: innerSet rest k v

/-- `details.get(c)` (defaulting to an empty map; `analyze` pre-seeds all five). -/
def dGet : DetailsMap → Category → InnerMap
  | [], _ => []
  | p :: rest, c => if p.1 = c then p.2 else dGet rest c

/-- `details.set(c, m)`. -/
def dSet : DetailsMap → Category → InnerMap → DetailsMap
  | [], c, m => [(c, m)]
  | p :: rest, c, m => if p.1 = c then (c, m) :: rest else p :: dSet rest c m

/-- `details.get(c).set(k, (details.get(c).get(k) || 0) + v)`. -/
def dAdd (d : DetailsMap) (c : Category) (k : List Char) (v : ℚ) : DetailsMap :=
  dSet d c (innerSet (dGet d c) k (innerGet (dGet d c) k + v))

/-- Convenience accessor: the ledger value for `(c, k)`, defaulting to `0`. -/
def detailVal (d : DetailsMap) (c : Category) (k : List Char) : ℚ :=
  innerGet (dGet d c) k

/-- The mutable `(raw, details)` pair threaded through `analyze`'s loops. -/
structure ScoreState where
  raw : Category → ℚ
  details : DetailsMap

/-- Pointwise update of the `raw` record. -/
def setRaw (f : Category → ℚ) (c : Category) (v : ℚ) : Category → ℚ :=
  fun x => if x = c then v else f x

/-- The left context window: `t.slice(Math.max(0, idx - 8), idx)`. -/
def leftWindow (t : List Char) (idx : Nat) : List Char :=
  (t.take idx).drop (idx - 8)

/-- The right context window: `t.slice(idx + len, idx + len + 6)`. -/
def rightWindow (t : List Char) (idx len : Nat) : List Char :=
  (t.drop (idx + len)).take 6

/-- The contextual modifier factor of one occurrence:
`factor = 1`, `*= 1.5` on an intensifier in the left window, `*= 0.7` on a
diminisher in the left window, set to `0` on a negation in the right window. -/
def occFactor (t : List Char) (idx len : Nat) : ℚ :=
  let f1 : ℚ := 1
  let f2 : ℚ := if windowHas INTENSIFIERS (leftWindow t idx) then f1 * (3 / 2) else f1
  let f3 : ℚ := if windowHas DIMINISHERS (leftWindow t idx) then f2 * (7 / 10) else f2
  if windowHas NEGATIONS (rightWindow t idx len) then 0 else f3

/-- The body of `for (const idx of idxs)`: add `delta = weight * factor` to the
raw score and ledger of every routed category (`lex.categories ?? [cat]`). -/
def applyOcc (t : List Char) (cat : Category) (lx : Lexeme) (st : ScoreState)
    (idx : Nat) : ScoreState :=
  let delta := lx.weight.getD 1 * occFactor t idx lx.term.length
  (lx.categories.getD [cat]).foldl
    (fun s cc => ⟨setRaw s.raw cc (s.raw cc + delta), dAdd s.details cc lx.term delta⟩) st

/-- The body of `for (const lex of lexicon[cat])`. -/
def applyLexeme (t : List Char) (cat : Category) (st : ScoreState) (lx : Lexeme) :
    ScoreState :=
  (countSubstringIndices t lx.term).foldl (applyOcc t cat lx) st

/-- The body of `for (const cat of categories)`. -/
def applyCategory (t : List Char) (lexicon : Lexicon) (st : ScoreState)
    (cat : Category) : ScoreState :=
  (lexicon cat).foldl (applyLexeme t cat) st

/-- The whole keyword-matching phase of `analyze`. -/
def termPhase (t : List Char) (lexicon : Lexicon) (st : ScoreState) : ScoreState :=
  CATS.foldl (applyCategory t lexicon) st

/-- The reserved internal ledger key `"__RELATION_META__"`. -/
def RELATION_META : List Char := "__RELATION_META__".toList

/-- `bonus = Σ_w count(w) * 0.6` over the relationship words. -/
def bondBonus (t : List Char) : ℚ :=
  (bondBoosters.map (fun w => (countOcc t w : ℚ) * (3 / 5))).sum

/-- The `relationBoost` block: add the bond bonus to 愛情 and, when nonzero,
record it under the reserved meta key. -/
def applyBond (t : List Char) (st : ScoreState) : ScoreState :=
  let bonus := bondBonus t
  let st1 : ScoreState := ⟨setRaw st.raw .aijou (st.raw .aijou + bonus), st.details⟩
  if bonus ≠ 0 then ⟨st1.raw, dAdd st1.details .aijou RELATION_META bonus⟩ else st1

/-- `baseEmojiBoost(t, c)`: `1.2` per matched emoji glyph of the category. -/
def emojiBoost (t : List Char) (c : Category) : ℚ :=
  ((EMOJI_BOOST c).map (fun e => (countOcc t e : ℚ))).sum * (6 / 5)

/-- Count of `'!'` and fullwidth `'！'` (the `/[!！]/g` match). -/
def exclaimCount (t : List Char) : Nat :=
  (t.filter (fun c => c = '!' || c = '！')).length

/-- `amp = 1 + Math.min(0.5, count * 0.05)`. -/
def ampOf (t : List Char) : ℚ :=
  1 + min (1 / 2) ((exclaimCount t : ℚ) * (1 / 20))

/-- `lengthNorm = Math.max(0.7, Math.min(1.0, 180 / Math.max(60, t.length)))`. -/
def lengthNormOf (t : List Char) : ℚ :=
  max (7 / 10) (min 1 (180 / max 60 (t.length : ℚ)))

/-- `raw` zeroed, `details` pre-seeded with an empty map per category. -/
def initState : ScoreState :=
  ⟨fun _ => 0, CATS.map (fun c => (c, []))⟩

/-- State after the relation-boost block and the keyword-matching loops. -/
def stateAfterTerms (t : List Char) (lexicon : Lexicon) (relationBoost : Bool) :
    ScoreState :=
  termPhase t lexicon (if relationBoost then applyBond t initState else initState)

/-- Final raw score: term/bond contributions plus emoji boost, all scaled by
`amp * lengthNorm`. -/
def rawFinal (t : List Char) (lexicon : Lexicon) (relationBoost : Bool)
    (c : Category) : ℚ :=
  ((stateAfterTerms t lexicon relationBoost).raw c + emojiBoost t c) *
    (ampOf t * lengthNormOf t)

/-- Maximum of a nonempty list, JS `Math.max(...)` style (`0` on `[]`, unused). -/
def listMaxQ : List ℚ → ℚ
  | [] => 0
  | [x] => x
  | x :: y :: rest => max x (listMaxQ (y :: rest))

/-- `maxv = Math.max(0.0001, ...raw)`. -/
def maxvOf (t : List Char) (lexicon : Lexicon) (relationBoost : Bool) : ℚ :=
  max (1 / 10000) (listMaxQ (CATS.map (rawFinal t lexicon relationBoost)))

/-- The result record of `analyze`. -/
structure AnalysisResult where
  raw : Category → ℚ
  normalized : Category → ℚ
  details : DetailsMap

/-- The all-zero result returned for blank input (note the empty `details`). -/
def zeroResult : AnalysisResult := ⟨fun _ => 0, fun _ => 0, []⟩

/-- The non-blank branch of `analyze` on the already-trimmed text `t`. -/
def analyzeCore (t : List Char) (lexicon : Lexicon) (relationBoost : Bool) :
    AnalysisResult :=
  ⟨rawFinal t lexicon relationBoost,
    fun c => rawFinal t lexicon relationBoost c / maxvOf t lexicon relationBoost * 100,
    (stateAfterTerms t lexicon relationBoost).details⟩

/-- `analyze(text, lexicon, relationBoost)`. -/
def analyze (text : List Char) (lexicon : Lexicon) (relationBoost : Bool) :
    AnalysisResult :=
  if jsTrim text = [] then zeroResult
  else analyzeCore (jsTrim text) lexicon relationBoost

/-- The component-level leader selector (`leaders` memo): empty on blank text or
an all-nonpositive maximum, else all categories within `EPS` of the maximum. -/
def leadersOf (text : List Char) (res : AnalysisResult) : List Category :=
  let mx := listMaxQ (CATS.map res.normalized)
  if jsTrim text = [] ∨ mx ≤ 0 then []
  else CATS.filter (fun k => |res.normalized k - mx| ≤ 1 / 10000)

/-! ## History store -/

/-- `HISTORY_MAX_DEFAULT = 500`. -/
def HISTORY_MAX_DEFAULT : Nat := 500

/-- `HISTORY_MIN_CHARS = 10` (part_001 variant). -/
def HISTORY_MIN_CHARS : Nat := 10

/-- `Math.round(n * 10) / 10` (JS rounds half toward plus infinity). -/
def round1 (q : ℚ) : ℚ := (⌊q * 10 + 1 / 2⌋ : ℚ) / 10

/-- `type HistItem`. `pinned?: boolean` is an `Option` to keep the
present/absent distinction of the optional field. -/
structure HistItem where
  id : List Char
  ts : List Char
  snip : List Char
  full : List Char
  norm : List ℚ
  lead : List Category
  top : List (Category × List (List Char × ℚ))
  ver : List Char
  lex : List Char
  pinned : Option Bool := none
deriving DecidableEq, Repr

/-- JS truthiness of `it.pinned`. -/
def jsPinned (it : HistItem) : Bool := it.pinned.getD false

/-- Does the inner ledger key start with `"__"` (internal/meta keys are
excluded from the top-terms view)? -/
def isMetaKey (k : List Char) : Bool := headMatches "__".toList k

/-- Top contributing terms of one category: drop meta keys, sort by value
descending (stable, as JS `Array.prototype.sort`), keep 3, round values. -/
def topTermsOf (m : InnerMap) : List (List Char × ℚ) :=
  (((m.filter (fun p => !isMetaKey p.1)).mergeSort
      (fun a b => decide (b.2 ≤ a.2))).take 3).map (fun p => (p.1, round1 p.2))

/-- `makeHistItem(text, analysis, leaders, lexicon)`. The wall-clock id prefix
`Date.now().toString(36)` and the ISO timestamp are inputs (`nowB36`, `tsISO`),
and the lexicon fingerprint `hashLexicon(lexicon)` — a hash of the
JSON-stringified lexicon — is the opaque input `lexHash`. -/
def makeHistItem (nowB36 tsISO lexHash : List Char) (text : List Char)
    (analysis : AnalysisResult) (leaders : List Category) : HistItem :=
  let clean := jsTrim text
  let full := clean.take 1000
  { id := nowB36 ++ ['-'] ++ hashBase36 full
    ts := tsISO
    snip := clean.take 120
    full := full
    norm := CATS.map (fun c => round1 (analysis.normalized c))
    lead := leaders
    top := CATS.map (fun c => (c, topTermsOf (dGet analysis.details c)))
    ver := "1.3.0".toList
    lex := lexHash
    pinned := none }

/-- `next.findIndex(it => !it.pinned)` followed by `next.splice(idx, 1)`:
remove the oldest unpinned item, returning it and the remainder
(`none` when every item is pinned, i.e. `findIndex` returns `-1`). -/
def spliceFirstUnpinned : List HistItem → Option (HistItem × List HistItem)
  | [] => none
  | it :: rest =>
    if jsPinned it then (spliceFirstUnpinned rest).map (fun p => (p.1, it :: p.2))
    else some (it, rest)

/-- The `while (next.length > max)` eviction loop, with fuel (sufficient at the
initial list length: every iteration removes exactly one element). -/
def evictLoopAux (mx : Nat) : Nat → List HistItem → List HistItem
  | 0, l => l
  | fuel + 1, l =>
    if mx < l.length then
      match spliceFirstUnpinned l with
      | none => l
      | some (_, l2) => evictLoopAux mx fuel l2
    else l

def evictLoop (mx : Nat) (l : List HistItem) : List HistItem :=
  evictLoopAux mx l.length l

/-- The part_001 dedup window: some of the last 10 items has the draft's hash
(`existing.slice(-10).some(it => hashBase36(it.full) === h)`). -/
def dupRecent (existing : List HistItem) (draft : HistItem) : Bool :=
  (existing.drop (existing.length - 10)).any
    (fun it => hashBase36 it.full == hashBase36 draft.full)

/-- `appendWithLimit` (part_001 variant): last-10 dedup, then append, then
evict oldest unpinned while over the cap. -/
def appendWithLimit (existing : List HistItem) (draft : HistItem) (mx : Nat) :
    List HistItem :=
  if dupRecent existing draft then existing
  else evictLoop mx (existing ++ [draft])

/-- The App1 eviction loop also erases each evicted item's hash from the
full-history hash set. -/
def evictLoopV1Aux (mx : Nat) :
    Nat → List HistItem × Finset (List Char) → List HistItem × Finset (List Char)
  | 0, p => p
  | fuel + 1, (l, s) =>
    if mx < l.length then
      match spliceFirstUnpinned l with
      | none => (l, s)
      | some (removed, l2) => evictLoopV1Aux mx fuel (l2, s.erase (hashBase36 removed.full))
    else (l, s)

def evictLoopV1 (mx : Nat) (l : List HistItem) (s : Finset (List Char)) :
    List HistItem × Finset (List Char) :=
  evictLoopV1Aux mx l.length (l, s)

/-- `appendWithLimit` (App1.tsx variant): dedup against the full-history hash
set, which is threaded in and out explicitly (it is a mutable `Set` ref in the
source). -/
def appendWithLimitV1 (existing : List HistItem) (draft : HistItem) (mx : Nat)
    (hashSet : Finset (List Char)) : List HistItem × Finset (List Char) :=
  let h := hashBase36 draft.full
  if h ∈ hashSet then (existing, hashSet)
  else evictLoopV1 mx (existing ++ [draft]) (insert h hashSet)

/-- `deleteHistoryItem` (part_001 variant). Returns the next list and whether
the delete was blocked (the "ピン済みは削除できません" toast). -/
def deleteHistoryItem (prev : List HistItem) (targetId : List Char) :
    List HistItem × Bool :=
  let target := prev.find? (fun it => it.id = targetId)
  if ((target.bind (fun it => it.pinned)).getD false) then (prev, true)
  else (prev.filter (fun it => !(it.id = targetId)), false)

/-- `deleteHistoryItem` (App1.tsx variant): filter unconditionally, and drop
the deleted item's hash from the hash set. -/
def deleteHistoryItemV1 (prev : List HistItem) (hashSet : Finset (List Char))
    (targetId : List Char) : List HistItem × Finset (List Char) :=
  let next := prev.filter (fun it => !(it.id = targetId))
  match prev.find? (fun it => it.id = targetId) with
  | some deleted => (next, hashSet.erase (hashBase36 deleted.full))
  | none => (next, hashSet)

/-- The commit-relevant component state: the history list and the
`lastSavedHashRef` guard. -/
structure CommitState where
  history : List HistItem
  lastSavedHash : Option (List Char)
deriving DecidableEq, Repr

/-- The leader computation local to `commitHistory`. -/
def localLeaders (res : AnalysisResult) : List Category :=
  let mx := listMaxQ (CATS.map res.normalized)
  if mx ≤ 0 then []
  else CATS.filter (fun k => |res.normalized k - mx| ≤ 1 / 10000)

/-- `commitHistory` (part_001 variant). The source guards
`if (next !== history)` by reference; `appendWithLimit` returns the `existing`
reference exactly on its dedup early-return path, so that guard is modelled by
the `dupRecent` test. -/
def commitHistory (nowB36 tsISO lexHash : List Char) (text : List Char)
    (lexicon : Lexicon) (relationBoost : Bool) (st : CommitState) : CommitState :=
  let clean := jsTrim text
  if clean.length < HISTORY_MIN_CHARS then st
  else
    let full := clean.take 1000
    let h := hashBase36 full
    if st.lastSavedHash = some h then st
    else
      let localResult := analyze clean lexicon relationBoost
      let item := makeHistItem nowB36 tsISO lexHash clean localResult
        (localLeaders localResult)
      if dupRecent st.history item then st
      else
        { history := appendWithLimit st.history item HISTORY_MAX_DEFAULT
          lastSavedHash := some h }

/-! ## History export / import (JSON value tree) -/

/-- JSON values (`stringify`/`parse` are modelled on this tree). -/
inductive Json where
  | str : List Char → Json
  | num : ℚ → Json
  | jbool : Bool → Json
  | arr : List Json → Json
  | obj : List (List Char × Json) → Json

/-- Property lookup by name on a JSON object's field list. -/
def lookupField (fs : List (List Char × Json)) (k : List Char) : Option Json :=
  ((fs.find? (fun p => p.1 = k)).map (fun p => p.2))

/-- One `[term, value]` pair of the top-terms table. -/
def pairToJson (p : List Char × ℚ) : Json := .arr [.str p.1, .num p.2]

/-- A `HistItem` as `JSON.stringify` lays it out: properties in insertion
order, `pinned` present only when the field is set. -/
def histItemToJson (h : HistItem) : Json :=
  .obj
    ([("id".toList, .str h.id), ("ts".toList, .str h.ts),
      ("snip".toList, .str h.snip), ("full".toList, .str h.full),
      ("norm".toList, .arr (h.norm.map .num)),
      ("lead".toList, .arr (h.lead.map (fun c => .str (catName c)))),
      ("top".toList, .obj (h.top.map
        (fun q => (catName q.1, Json.arr (q.2.map pairToJson))))),
      ("ver".toList, .str h.ver), ("lex".toList, .str h.lex)] ++
      (match h.pinned with
       | some b => [("pinned".toList, Json.jbool b)]
       | none => []))

/-- `doExportHistory`: the whole ordered list as one JSON array. -/
def exportHistory (hist : List HistItem) : Json := .arr (hist.map histItemToJson)

/-- The import validation of one element:
`x && typeof x.id === "string" && typeof x.ts === "string" && typeof x.full === "string"`. -/
def validHistElem : Json → Bool
  | .obj fs =>
    (match lookupField fs "id".toList with | some (.str _) => true | _ => false) &&
    (match lookupField fs "ts".toList with | some (.str _) => true | _ => false) &&
    (match lookupField fs "full".toList with | some (.str _) => true | _ => false)
  | _ => false

def jsonToNum : Json → Option ℚ
  | .num q => some q
  | _ => none

def jsonToCat : Json → Option Category
  | .str s => catOfName s
  | _ => none

def jsonToPair : Json → Option (List Char × ℚ)
  | .arr [.str s, .num q] => some (s, q)
  | _ => none

/-- Elementwise decoding of a list (the cast succeeds only elementwise). -/
def decodeNums : List Json → Option (List ℚ)
  | [] => some []
  | j :: rest =>
    match jsonToNum j, decodeNums rest with
    | some q, some l => some (q :: l)
    | _, _ => none

def decodeCats : List Json → Option (List Category)
  | [] => some []
  | j :: rest =>
    match jsonToCat j, decodeCats rest with
    | some c, some l => some (c :: l)
    | _, _ => none

def decodePairs : List Json → Option (List (List Char × ℚ))
  | [] => some []
  | j :: rest =>
    match jsonToPair j, decodePairs rest with
    | some p, some l => some (p :: l)
    | _, _ => none

def jsonToTopRow (p : List Char × Json) :
    Option (Category × List (List Char × ℚ)) :=
  match catOfName p.1, p.2 with
  | some c, .arr xs => (decodePairs xs).map (fun l => (c, l))
  | _, _ => none

def decodeTopRows : List (List Char × Json) →
    Option (List (Category × List (List Char × ℚ)))
  | [] => some []
  | p :: rest =>
    match jsonToTopRow p, decodeTopRows rest with
    | some r, some l => some (r :: l)
    | _, _ => none

/-- Reading the parsed object back as a `HistItem` (the source merely casts
`parsed as HistItem[]`; in the typed embedding this is the partial decoding
that is total on everything `histItemToJson` produces). -/
def jsonToHistItem : Json → Option HistItem
  | .obj fs =>
    match lookupField fs "id".toList, lookupField fs "ts".toList,
        lookupField fs "snip".toList, lookupField fs "full".toList,
        lookupField fs "norm".toList, lookupField fs "lead".toList,
        lookupField fs "top".toList, lookupField fs "ver".toList,
        lookupField fs "lex".toList, lookupField fs "pinned".toList with
    | some (.str idv), some (.str tsv), some (.str snipv), some (.str fullv),
        some (.arr normv), some (.arr leadv), some (.obj topv),
        some (.str verv), some (.str lexv), pinv =>
      match decodeNums normv, decodeCats leadv, decodeTopRows topv,
          (match pinv with
           | none => some none
           | some (.jbool b) => some (some b)
           | some _ => none) with
      | some nrm, some ld, some tp, some pn =>
        some ⟨idv, tsv, snipv, fullv, nrm, ld, tp, verv, lexv, pn⟩
      | _, _, _, _ => none
    | _, _, _, _, _, _, _, _, _, _ => none
  | _ => none

def decodeItems : List Json → Option (List HistItem)
  | [] => some []
  | j :: rest =>
    match jsonToHistItem j, decodeItems rest with
    | some h, some l => some (h :: l)
    | _, _ => none

/-- `handleImportHistoryInput` on an already-parsed JSON value: require an
array, validate every element, then replace the history wholesale. -/
def importHistory (j : Json) : Option (List HistItem) :=
  match j with
  | .arr xs =>
    if xs.all validHistElem then decodeItems xs else none
  | _ => none

/-! ## Helper lemmas: ledger maps and routing folds -/

lemma innerGet_innerSet (m : InnerMap) (k : List Char) (v : ℚ) (k2 : List Char) :
    innerGet (innerSet m k v) k2 = if k2 = k then v else innerGet m k2 := by
  induction m with
  | nil =>
    by_cases h : k2 = k
    · simp [innerSet, innerGet, h]
    · have h2 : ¬(k = k2) := fun hh => h hh.symm
      simp [innerSet, innerGet, h, h2]
  | cons p rest ih =>
    by_cases hpk : p.1 = k
    · by_cases h : k2 = k
      · simp [innerSet, innerGet, hpk, h]
      · have h2 : ¬(k = k2) := fun hh => h hh.symm
        have hp2 : ¬(p.1 = k2) := fun hh => h2 (hpk ▸ hh)
        simp [innerSet, innerGet, hpk, h, h2, hp2]
    · by_cases hp2 : p.1 = k2
      · have h : ¬(k2 = k) := fun hh => hpk (by rw [hp2, hh])
        simp [innerSet, innerGet, hpk, hp2, h]
      · simp [innerSet, innerGet, hpk, hp2, ih]

lemma dGet_dSet (d : DetailsMap) (c : Category) (m : InnerMap) (c2 : Category) :
    dGet (dSet d c m) c2 = if c2 = c then m else dGet d c2 := by
  induction d with
  | nil =>
    by_cases h : c2 = c
    · simp [dSet, dGet, h]
    · have h2 : ¬(c = c2) := fun hh => h hh.symm
      simp [dSet, dGet, h, h2]
  | cons p rest ih =>
    by_cases hpc : p.1 = c
    · by_cases h : c2 = c
      · simp [dSet, dGet, hpc, h]
      · have h2 : ¬(c = c2) := fun hh => h hh.symm
        have hp2 : ¬(p.1 = c2) := fun hh => h2 (hpc ▸ hh)
        simp [dSet, dGet, hpc, h, h2, hp2]
    · by_cases hp2 : p.1 = c2
      · have h : ¬(c2 = c) := fun hh => hpc (by rw [hp2, hh])
        simp [dSet, dGet, hpc, hp2, h]
      · simp [dSet, dGet, hpc, hp2, ih]

lemma detailVal_dAdd (d : DetailsMap) (c : Category) (k : List Char) (v : ℚ)
    (c2 : Category) (k2 : List Char) :
    detailVal (dAdd d c k v) c2 k2 =
      if c2 = c ∧ k2 = k then detailVal d c k + v else detailVal d c2 k2 := by
  by_cases hc : c2 = c
  · by_cases hk : k2 = k <;>
      simp [detailVal, dAdd, dGet_dSet, innerGet_innerSet, hc, hk]
  · simp [detailVal, dAdd, dGet_dSet, hc]

/-- The raw-score effect of the routing fold of `applyOcc`: each routed
category receives `δ` once per occurrence in the routing list. -/
lemma routeFold_raw (δ : ℚ) (k : List Char) (cats : List Category)
    (st : ScoreState) (c : Category) :
    ((cats.foldl
        (fun s cc => ⟨setRaw s.raw cc (s.raw cc + δ), dAdd s.details cc k δ⟩)
        st).raw c)
      = st.raw c + δ * (cats.count c : ℚ) := by
  induction cats generalizing st with
  | nil => simp
  | cons cc rest ih =>
    rw [List.foldl_cons, ih]
    by_cases h : c = cc
    · subst h
      simp [setRaw, List.count_cons]
      ring
    · have : (cc == c) = false := by simpa using fun hcontra => h hcontra.symm
      simp [setRaw, List.count_cons, h, this]

/-- The ledger effect of the routing fold of `applyOcc` on the key `k` itself. -/
lemma routeFold_detail (δ : ℚ) (k : List Char) (cats : List Category)
    (st : ScoreState) (c : Category) :
    detailVal ((cats.foldl
        (fun s cc => ⟨setRaw s.raw cc (s.raw cc + δ), dAdd s.details cc k δ⟩)
        st).details) c k
      = detailVal st.details c k + δ * (cats.count c : ℚ) := by
  induction cats generalizing st with
  | nil => simp
  | cons cc rest ih =>
    rw [List.foldl_cons, ih]
    by_cases h : c = cc
    · subst h
      simp [detailVal_dAdd, List.count_cons]
      ring
    · have : (cc == c) = false := by simpa using fun hcontra => h hcontra.symm
      simp [detailVal_dAdd, List.count_cons, h, this]

/-- Ledger keys other than the matched term are untouched by the routing fold. -/
lemma routeFold_detail_other (δ : ℚ) (k : List Char) (cats : List Category)
    (st : ScoreState) (c : Category) (k2 : List Char) (hk : k2 ≠ k) :
    detailVal ((cats.foldl
        (fun s cc => ⟨setRaw s.raw cc (s.raw cc + δ), dAdd s.details cc k δ⟩)
        st).details) c k2
      = detailVal st.details c k2 := by
  induction cats generalizing st with
  | nil => simp
  | cons cc rest ih =>
    rw [List.foldl_cons, ih]
    simp [detailVal_dAdd, hk]

/-! ## Helper lemmas: per-occurrence contribution (`applyOcc`) -/

lemma applyOcc_raw (t : List Char) (cat : Category) (lx : Lexeme)
    (st : ScoreState) (idx : Nat) (c : Category) :
    (applyOcc t cat lx st idx).raw c =
      st.raw c + lx.weight.getD 1 * occFactor t idx lx.term.length *
        (((lx.categories.getD [cat]).count c : ℚ)) := by
  simpa using routeFold_raw (lx.weight.getD 1 * occFactor t idx lx.term.length)
    lx.term (lx.categories.getD [cat]) st c

lemma applyOcc_detail (t : List Char) (cat : Category) (lx : Lexeme)
    (st : ScoreState) (idx : Nat) (c : Category) :
    detailVal (applyOcc t cat lx st idx).details c lx.term =
      detailVal st.details c lx.term +
        lx.weight.getD 1 * occFactor t idx lx.term.length *
          (((lx.categories.getD [cat]).count c : ℚ)) := by
  simpa using routeFold_detail (lx.weight.getD 1 * occFactor t idx lx.term.length)
    lx.term (lx.categories.getD [cat]) st c

lemma applyOcc_detail_other (t : List Char) (cat : Category) (lx : Lexeme)
    (st : ScoreState) (idx : Nat) (c : Category) (k : List Char)
    (hk : k ≠ lx.term) :
    detailVal (applyOcc t cat lx st idx).details c k = detailVal st.details c k :=
  routeFold_detail_other _ _ _ _ _ _ hk

/-! ## Helper lemmas: nonnegativity of the raw scores -/

/-- Invariant preservation through `List.foldl`. -/
lemma foldl_preserve {α β : Type} (P : β → Prop) (f : β → α → β) :
    ∀ (l : List α) (s : β), (∀ a ∈ l, ∀ x, P x → P (f x a)) → P s → P (l.foldl f s)
  | [], _, _, hs => hs
  | a :: l, s, h, hs =>
    foldl_preserve P f l (f s a) (fun b hb x hx => h b (List.mem_cons_of_mem a hb) x hx)
      (h a (List.mem_cons_self a l) s hs)

lemma occFactor_nonneg (t : List Char) (idx len : Nat) :
    0 ≤ occFactor t idx len := by
  unfold occFactor
  split_ifs <;> norm_num

/-- Raw scores stay nonnegative through one occurrence of a
nonnegative-weight lexeme. -/
lemma applyOcc_nonneg (t : List Char) (cat : Category) (lx : Lexeme)
    (hw : 0 ≤ lx.weight.getD 1) (st : ScoreState) (idx : Nat)
    (hst : ∀ c, 0 ≤ st.raw c) : ∀ c, 0 ≤ (applyOcc t cat lx st idx).raw c := by
  intro c
  rw [applyOcc_raw]
  have hδ : 0 ≤ lx.weight.getD 1 * occFactor t idx lx.term.length :=
    mul_nonneg hw (occFactor_nonneg t idx lx.term.length)
  exact add_nonneg (hst c) (mul_nonneg hδ (by positivity))

lemma applyLexeme_nonneg (t : List Char) (cat : Category) (lx : Lexeme)
    (hw : 0 ≤ lx.weight.getD 1) (st : ScoreState)
    (hst : ∀ c, 0 ≤ st.raw c) : ∀ c, 0 ≤ (applyLexeme t cat st lx).raw c := by
  unfold applyLexeme
  exact foldl_preserve (fun s => ∀ c, 0 ≤ s.raw c) (applyOcc t cat lx) _ st
    (fun idx _ x hx => applyOcc_nonneg t cat lx hw x idx hx) hst

/-- A lexicon all of whose (defaulted) weights are nonnegative. -/
def NonnegLex (L : Lexicon) : Prop :=
  ∀ c : Category, ∀ lx ∈ L c, (0 : ℚ) ≤ lx.weight.getD 1

instance (L : Lexicon) : Decidable (NonnegLex L) := by
  unfold NonnegLex
  infer_instance

lemma termPhase_nonneg (t : List Char) (L : Lexicon) (hL : NonnegLex L)
    (st : ScoreState) (hst : ∀ c, 0 ≤ st.raw c) :
    ∀ c, 0 ≤ (termPhase t L st).raw c := by
  unfold termPhase
  refine foldl_preserve (fun s => ∀ c, 0 ≤ s.raw c) (applyCategory t L) _ st ?_ hst
  intro cat _ x hx
  unfold applyCategory
  exact foldl_preserve (fun s => ∀ c, 0 ≤ s.raw c) (applyLexeme t cat) _ x
    (fun lx hlx y hy => applyLexeme_nonneg t cat lx (hL cat lx hlx) y hy) hx

lemma bondBonus_nonneg (t : List Char) : 0 ≤ bondBonus t := by
  refine List.sum_nonneg ?_
  intro x hx
  obtain ⟨w, _, rfl⟩ := List.mem_map.mp hx
  positivity

lemma applyBond_nonneg (t : List Char) (st : ScoreState)
    (hst : ∀ c, 0 ≤ st.raw c) : ∀ c, 0 ≤ (applyBond t st).raw c := by
  intro c
  have hb := bondBonus_nonneg t
  unfold applyBond
  simp only []
  split_ifs with h1 <;>
  · show 0 ≤ setRaw st.raw .aijou (st.raw .aijou + bondBonus t) c
    unfold setRaw
    split_ifs with h2
    · exact add_nonneg (hst _) hb
    · exact hst c

lemma emojiBoost_nonneg (t : List Char) (c : Category) : 0 ≤ emojiBoost t c := by
  unfold emojiBoost
  refine mul_nonneg (List.sum_nonneg ?_) (by norm_num)
  intro x hx
  obtain ⟨e, _, rfl⟩ := List.mem_map.mp hx
  positivity

lemma ampOf_pos (t : List Char) : 0 < ampOf t := by
  unfold ampOf
  have : (0 : ℚ) ≤ min (1 / 2) ((exclaimCount t : ℚ) * (1 / 20)) :=
    le_min (by norm_num) (by positivity)
  linarith

lemma lengthNormOf_pos (t : List Char) : 0 < lengthNormOf t := by
  unfold lengthNormOf
  have : (7 / 10 : ℚ) ≤ max (7 / 10) (min 1 (180 / max 60 (t.length : ℚ))) :=
    le_max_left _ _
  linarith

lemma rawFinal_nonneg (t : List Char) (L : Lexicon) (rb : Bool)
    (hL : NonnegLex L) (c : Category) : 0 ≤ rawFinal t L rb c := by
  unfold rawFinal
  have h1 : ∀ c2, 0 ≤ (stateAfterTerms t L rb).raw c2 := by
    unfold stateAfterTerms
    refine termPhase_nonneg t L hL _ ?_
    cases rb
    · intro c2; simp [initState]
    · exact applyBond_nonneg t initState (fun c2 => by simp [initState])
  exact mul_nonneg (add_nonneg (h1 c) (emojiBoost_nonneg t c))
    (mul_nonneg (ampOf_pos t).le (lengthNormOf_pos t).le)

/-! ## Helper lemmas: `listMaxQ` -/

lemma listMaxQ_ge : ∀ (l : List ℚ), ∀ x ∈ l, x ≤ listMaxQ l
  | [x0], x, hx => by simp_all [listMaxQ]
  | x0 :: y :: rest, x, hx => by
    rcases List.mem_cons.mp hx with h | h
    · subst h; exact le_max_left _ _
    · exact le_trans (listMaxQ_ge (y :: rest) x h) (le_max_right _ _)

lemma listMaxQ_mem : ∀ (l : List ℚ), l ≠ [] → listMaxQ l ∈ l
  | [x0], _ => by simp [listMaxQ]
  | x0 :: y :: rest, _ => by
    rcases max_cases x0 (listMaxQ (y :: rest)) with ⟨heq, _⟩ | ⟨heq, _⟩ <;>
      rw [listMaxQ, heq]
    · exact List.mem_cons_self _ _
    · exact List.mem_cons_of_mem _ (listMaxQ_mem (y :: rest) (by simp))

lemma listMaxQ_le (b : ℚ) : ∀ (l : List ℚ), l ≠ [] → (∀ x ∈ l, x ≤ b) →
    listMaxQ l ≤ b := by
  intro l hl hb
  exact hb _ (listMaxQ_mem l hl)

lemma mem_CATS (c : Category) : c ∈ CATS := by cases c <;> simp [CATS]

lemma rawFinal_le_maxv (t : List Char) (L : Lexicon) (rb : Bool) (c : Category) :
    rawFinal t L rb c ≤ maxvOf t L rb := by
  unfold maxvOf
  exact le_trans
    (listMaxQ_ge _ _ (List.mem_map.mpr ⟨c, mem_CATS c, rfl⟩))
    (le_max_right _ _)

lemma maxv_pos (t : List Char) (L : Lexicon) (rb : Bool) : 0 < maxvOf t L rb :=
  lt_of_lt_of_le (by norm_num) (le_max_left _ _)

/-! ## Helper lemmas: eviction loop -/

lemma spliceFirstUnpinned_none_iff (l : List HistItem) :
    spliceFirstUnpinned l = none ↔ ∀ it ∈ l, jsPinned it = true := by
  induction l with
  | nil => simp [spliceFirstUnpinned]
  | cons it rest ih =>
    by_cases h : jsPinned it
    · simp [spliceFirstUnpinned, h, Option.map_eq_none, ih]
    · simp [spliceFirstUnpinned, h]

lemma spliceFirstUnpinned_some (l : List HistItem) (x : HistItem)
    (l2 : List HistItem) (hs : spliceFirstUnpinned l = some (x, l2)) :
    l2.length + 1 = l.length ∧ l2.Sublist l ∧ jsPinned x = false ∧
      l2.filter jsPinned = l.filter jsPinned := by
  induction l generalizing x l2 with
  | nil => simp [spliceFirstUnpinned] at hs
  | cons it rest ih =>
    by_cases h : jsPinned it
    · rw [spliceFirstUnpinned, if_pos h] at hs
      cases hok : spliceFirstUnpinned rest with
      | none => simp [hok] at hs
      | some p =>
        obtain ⟨y, r2⟩ := p
        rw [hok] at hs
        simp at hs
        obtain ⟨hx, hl2⟩ := hs
        obtain ⟨hlen, hsub, hpin, hfil⟩ := ih y r2 hok
        refine ⟨?_, ?_, ?_, ?_⟩
        · rw [← hl2]; simp; omega
        · rw [← hl2]; exact hsub.cons₂ it
        · rw [← hx]; exact hpin
        · rw [← hl2]; simp [List.filter_cons, h, hfil]
    · rw [spliceFirstUnpinned, if_neg h] at hs
      simp at hs
      obtain ⟨hx, hl2⟩ := hs
      refine ⟨?_, ?_, ?_, ?_⟩
      · rw [← hl2]; simp
      · rw [← hl2]; exact List.sublist_cons_self it rest
      · rw [← hx]; simpa using h
      · rw [← hl2]; simp [List.filter_cons, h]

lemma evictLoopAux_filter (mx fuel : Nat) (l : List HistItem) :
    (evictLoopAux mx fuel l).filter jsPinned = l.filter jsPinned := by
  induction fuel generalizing l with
  | zero => rfl
  | succ fuel ih =>
    rw [evictLoopAux]
    split_ifs with h
    · rcases hs : spliceFirstUnpinned l with _ | ⟨x, l2⟩
      · rfl
      · rw [ih l2, (spliceFirstUnpinned_some l x l2 hs).2.2.2]
    · rfl

lemma evictLoopAux_sublist (mx fuel : Nat) (l : List HistItem) :
    (evictLoopAux mx fuel l).Sublist l := by
  induction fuel generalizing l with
  | zero => exact List.Sublist.refl l
  | succ fuel ih =>
    rw [evictLoopAux]
    split_ifs with h
    · rcases hs : spliceFirstUnpinned l with _ | ⟨x, l2⟩
      · exact List.Sublist.refl l
      · exact (ih l2).trans (spliceFirstUnpinned_some l x l2 hs).2.1
    · exact List.Sublist.refl l

/-- With enough fuel the loop runs to completion: it stops only under the cap
or with every remaining item pinned. -/
lemma evictLoopAux_post (mx fuel : Nat) (l : List HistItem)
    (hfuel : l.length ≤ fuel) :
    (evictLoopAux mx fuel l).length ≤ mx ∨
      ∀ it ∈ evictLoopAux mx fuel l, jsPinned it = true := by
  induction fuel generalizing l with
  | zero =>
    left
    simpa using le_trans hfuel (Nat.zero_le mx)
  | succ fuel ih =>
    rw [evictLoopAux]
    split_ifs with h
    · rcases hs : spliceFirstUnpinned l with _ | ⟨x, l2⟩
      · right
        exact fun it hit => (spliceFirstUnpinned_none_iff l).mp hs it hit
      · have hlen := (spliceFirstUnpinned_some l x l2 hs).1
        exact ih l2 (by omega)
    · left
      omega

/-- Lists already within the cap are untouched by the eviction loop. -/
lemma evictLoopAux_id (mx fuel : Nat) (l : List HistItem)
    (h : ¬ mx < l.length) : evictLoopAux mx fuel l = l := by
  cases fuel with
  | zero => rfl
  | succ fuel => rw [evictLoopAux, if_neg h]

lemma evictLoopV1Aux_id (mx fuel : Nat) (l : List HistItem)
    (s : Finset (List Char)) (h : ¬ mx < l.length) :
    evictLoopV1Aux mx fuel (l, s) = (l, s) := by
  cases fuel with
  | zero => rfl
  | succ fuel => rw [evictLoopV1Aux, if_neg h]

/-! ## Helper lemmas: export/import round trip -/

lemma catOfName_catName (c : Category) : catOfName (catName c) = some c := by
  cases c <;> rfl

lemma decodeNums_roundtrip (l : List ℚ) : decodeNums (l.map Json.num) = some l := by
  induction l with
  | nil => rfl
  | cons q rest ih => simp [decodeNums, jsonToNum, ih]

lemma decodeCats_roundtrip (l : List Category) :
    decodeCats (l.map (fun c => Json.str (catName c))) = some l := by
  induction l with
  | nil => rfl
  | cons c rest ih => simp [decodeCats, jsonToCat, catOfName_catName, ih]

lemma decodePairs_roundtrip (l : List (List Char × ℚ)) :
    decodePairs (l.map pairToJson) = some l := by
  induction l with
  | nil => rfl
  | cons p rest ih => simp [decodePairs, pairToJson, jsonToPair, ih]

lemma decodeTopRows_roundtrip (l : List (Category × List (List Char × ℚ))) :
    decodeTopRows (l.map (fun q => (catName q.1, Json.arr (q.2.map pairToJson))))
      = some l := by
  induction l with
  | nil => rfl
  | cons q rest ih =>
    simp [decodeTopRows, jsonToTopRow, catOfName_catName, decodePairs_roundtrip, ih]

lemma jsonToHistItem_roundtrip (h : HistItem) :
    jsonToHistItem (histItemToJson h) = some h := by
  obtain ⟨idv, tsv, snipv, fullv, normv, leadv, topv, verv, lexv, pinv⟩ := h
  cases pinv with
  | none =>
    simp [jsonToHistItem, histItemToJson, lookupField, List.find?,
      decodeNums_roundtrip, decodeCats_roundtrip, decodeTopRows_roundtrip]
  | some b =>
    simp [jsonToHistItem, histItemToJson, lookupField, List.find?,
      decodeNums_roundtrip, decodeCats_roundtrip, decodeTopRows_roundtrip]

lemma validHistElem_export (h : HistItem) :
    validHistElem (histItemToJson h) = true := by
  cases hp : h.pinned <;>
    simp [validHistElem, histItemToJson, lookupField, List.find?, hp]

lemma decodeItems_roundtrip (l : List HistItem) :
    decodeItems (l.map histItemToJson) = some l := by
  induction l with
  | nil => rfl
  | cons h rest ih => simp [decodeItems, jsonToHistItem_roundtrip, ih]

/-! ## Concrete fixtures for witnesses and counterexamples -/

/-- A lexicon with no terms at all. -/
def emptyLexicon : Lexicon := fun _ => []

/-- A lexicon whose single lexeme carries an explicitly empty `categories` list. -/
def lexiconEmptyCats : Lexicon := fun c =>
  match c with
  | .aijou => [{ term := "a".toList, weight := some 1, categories := some [] }]
  | _ => []

/-- A pinned history item. -/
def pinnedItem0 : HistItem :=
  { id := "x1".toList, ts := "t".toList, snip := "p".toList, full := "p".toList,
    norm := [0, 0, 0, 0, 0], lead := [], top := [], ver := "v".toList,
    lex := "0".toList, pinned := some true }

/-- The intensifier-plus-diminisher context `とてもちょっと好きだ` (`好き` at index 7). -/
def modifierText : List Char := "とてもちょっと好きだ".toList

/-! ## Claims -/

/-- C2: in `analyze`, an occurrence's factor starts at 1, is multiplied by 1.5
when an intensifier occurs in the 8-character left window, by 0.7 when a
diminisher occurs there (1.05 when both), and is forced to exactly 0 —
overriding both — when a negation occurs in the 6-character right window; the
occurrence then contributes `weight * factor` to each routed category. -/
theorem C2_modifier_factors (t : List Char) (idx len : Nat) :
    (windowHas NEGATIONS (rightWindow t idx len) = true →
      occFactor t idx len = 0) ∧
    (windowHas NEGATIONS (rightWindow t idx len) = false →
      windowHas INTENSIFIERS (leftWindow t idx) = true →
      windowHas DIMINISHERS (leftWindow t idx) = true →
      occFactor t idx len = 21 / 20) ∧
    (windowHas NEGATIONS (rightWindow t idx len) = false →
      windowHas INTENSIFIERS (leftWindow t idx) = true →
      windowHas DIMINISHERS (leftWindow t idx) = false →
      occFactor t idx len = 3 / 2) ∧
    (windowHas NEGATIONS (rightWindow t idx len) = false →
      windowHas INTENSIFIERS (leftWindow t idx) = false →
      windowHas DIMINISHERS (leftWindow t idx) = true →
      occFactor t idx len = 7 / 10) ∧
    (windowHas NEGATIONS (rightWindow t idx len) = false →
      windowHas INTENSIFIERS (leftWindow t idx) = false →
      windowHas DIMINISHERS (leftWindow t idx) = false →
      occFactor t idx len = 1) ∧
    (∀ (cat : Category) (lx : Lexeme) (st : ScoreState) (c : Category),
      (applyOcc t cat lx st idx).raw c =
        st.raw c + lx.weight.getD 1 * occFactor t idx lx.term.length *
          ((lx.categories.getD [cat]).count c : ℚ)) := by
  refine ⟨?_, ?_, ?_, ?_, ?_, ?_⟩
  · intro h1; simp [occFactor, h1]
  · intro h1 h2 h3; simp [occFactor, h1, h2, h3]; norm_num
  · intro h1 h2 h3; simp [occFactor, h1, h2, h3]
  · intro h1 h2 h3; simp [occFactor, h1, h2, h3]
  · intro h1 h2 h3; simp [occFactor, h1, h2, h3]
  · intro cat lx st c; exact applyOcc_raw t cat lx st idx c

/-- Witness for C2: in `とてもちょっと好きだ`, the occurrence of `好き` at index 7
has both an intensifier and a diminisher in its left window, no negation in its
right window, and factor exactly 1.05. -/
theorem C2_modifier_factors_witness :
    windowHas NEGATIONS (rightWindow modifierText 7 2) = false ∧
    windowHas INTENSIFIERS (leftWindow modifierText 7) = true ∧
    windowHas DIMINISHERS (leftWindow modifierText 7) = true ∧
    occFactor modifierText 7 2 = 21 / 20 :=
  ⟨by decide, by decide, by decide,
    (C2_modifier_factors modifierText 7 2).2.1 (by decide) (by decide) (by decide)⟩

/-- C3 (amended): each occurrence's `delta = weight * factor` is added to the
raw score and details ledger of exactly the categories in `lex.categories`
(with multiplicity); when `categories` is unset the routing defaults to the
owning category; but when `categories` is an explicitly empty list the
occurrence contributes to no category at all (the `??` fallback fires only on
an absent field, not on an empty array). -/
theorem C3_contribution_routing (t : List Char) (cat : Category) (lx : Lexeme)
    (st : ScoreState) (idx : Nat) :
    (∀ c, (applyOcc t cat lx st idx).raw c =
      st.raw c + lx.weight.getD 1 * occFactor t idx lx.term.length *
        ((lx.categories.getD [cat]).count c : ℚ)) ∧
    (∀ c, detailVal (applyOcc t cat lx st idx).details c lx.term =
      detailVal st.details c lx.term +
        lx.weight.getD 1 * occFactor t idx lx.term.length *
          ((lx.categories.getD [cat]).count c : ℚ)) ∧
    (∀ c k, k ≠ lx.term →
      detailVal (applyOcc t cat lx st idx).details c k = detailVal st.details c k) ∧
    (lx.categories = none → lx.categories.getD [cat] = [cat]) := by
  refine ⟨fun c => applyOcc_raw t cat lx st idx c,
    fun c => applyOcc_detail t cat lx st idx c,
    fun c k hk => applyOcc_detail_other t cat lx st idx c k hk,
    fun h => by rw [h]; rfl⟩

/-- Witness for C3: a key different from the matched term is untouched by one
occurrence of the default-routed lexeme `a`. -/
theorem C3_contribution_routing_witness :
    detailVal (applyOcc "a".toList .aijou
        { term := "a".toList, weight := none, categories := none }
        initState 0).details .aijou "z".toList
      = detailVal initState.details .aijou "z".toList :=
  (C3_contribution_routing "a".toList .aijou
      { term := "a".toList, weight := none, categories := none }
      initState 0).2.2.1 .aijou "z".toList (by decide)

unseal Rat.mul Rat.inv Rat.add Rat.sub in
/-- C3 counterexample: a lexeme with `categories: []` owned by 愛情 matches the
text once (occurrence index 0) yet contributes to no category at all — in
particular not to its owning category, contradicting the claimed fallback. -/
theorem C3_counterexample :
    countSubstringIndices (jsTrim "a".toList) "a".toList = [0] ∧
    (analyze "a".toList lexiconEmptyCats false).raw .aijou = 0 ∧
    (analyze "a".toList lexiconEmptyCats false).raw .setsuna = 0 ∧
    (analyze "a".toList lexiconEmptyCats false).raw .kanashimi = 0 ∧
    (analyze "a".toList lexiconEmptyCats false).raw .amae = 0 ∧
    (analyze "a".toList lexiconEmptyCats false).raw .yoku = 0 ∧
    detailVal (analyze "a".toList lexiconEmptyCats false).details .aijou "a".toList = 0 := by
  refine ⟨by decide, by decide, by decide, by decide, by decide, by decide, by decide⟩

/-- C4 (amended): the part_001 `deleteHistoryItem` refuses a single-item delete
of a pinned item — it reports the blocked condition and leaves the list
unchanged — and deletes only when the targeted item is unpinned; the App1.tsx
variant of `deleteHistoryItem`, however, removes the item regardless of its
pinned flag (see the counterexample). -/
theorem C4_pinned_delete_refused (prev : List HistItem) (tid : List Char) :
    (((prev.find? (fun it => it.id = tid)).bind (fun it => it.pinned)).getD false = true →
      deleteHistoryItem prev tid = (prev, true)) ∧
    (((prev.find? (fun it => it.id = tid)).bind (fun it => it.pinned)).getD false = false →
      deleteHistoryItem prev tid = (prev.filter (fun it => !(it.id = tid)), false)) := by
  constructor <;> intro h <;> simp [deleteHistoryItem, h]

/-- Witness for C4: deleting the pinned item `pinnedItem0` is blocked and the
one-item history survives unchanged. -/
theorem C4_pinned_delete_refused_witness :
    (([pinnedItem0].find? (fun it => it.id = "x1".toList)).bind
        (fun it => it.pinned)).getD false = true ∧
    deleteHistoryItem [pinnedItem0] "x1".toList = ([pinnedItem0], true) :=
  ⟨by decide, (C4_pinned_delete_refused [pinnedItem0] "x1".toList).1 (by decide)⟩

/-- C4 counterexample: the App1.tsx variant deletes the pinned item instead of
refusing — the resulting history is empty, not unchanged. -/
theorem C4_counterexample :
    pinnedItem0.pinned = some true ∧
    (deleteHistoryItemV1 [pinnedItem0] ∅ "x1".toList).1 = [] :=
  ⟨by decide, by decide⟩

/-- C7: on blank or whitespace-only input, `analyze` short-circuits to raw and
normalized scores that are exactly 0 for all five categories with an empty
details ledger, and the leader set is empty. -/
theorem C7_blank_input_all_zero (L : Lexicon) (rb : Bool) (text : List Char)
    (hb : jsTrim text = []) :
    (∀ c, (analyze text L rb).raw c = 0) ∧
    (∀ c, (analyze text L rb).normalized c = 0) ∧
    (analyze text L rb).details = [] ∧
    leadersOf text (analyze text L rb) = [] := by
  have hz : analyze text L rb = zeroResult := by rw [analyze, if_pos hb]
  rw [hz]
  refine ⟨fun c => rfl, fun c => rfl, rfl, ?_⟩
  simp [leadersOf, hb]

/-- Witness for C7: the two-space text is whitespace-only and produces all-zero
scores, an empty ledger and no leaders under the empty lexicon. -/
theorem C7_blank_input_all_zero_witness :
    jsTrim "  ".toList = [] ∧
    ((∀ c, (analyze "  ".toList emptyLexicon true).raw c = 0) ∧
      (∀ c, (analyze "  ".toList emptyLexicon true).normalized c = 0) ∧
      (analyze "  ".toList emptyLexicon true).details = [] ∧
      leadersOf "  ".toList (analyze "  ".toList emptyLexicon true) = []) :=
  ⟨by decide, C7_blank_input_all_zero emptyLexicon true "  ".toList (by decide)⟩

/-- C9: exporting the history (ordered JSON array) and importing the exported
payload — every element passes the string-typed `id`/`ts`/`full` validation —
reproduces the identical ordered history list. -/
theorem C9_export_import_roundtrip (hist : List HistItem) :
    importHistory (exportHistory hist) = some hist := by
  have hall : (hist.map histItemToJson).all validHistElem = true := by
    rw [List.all_eq_true]
    intro j hj
    obtain ⟨h, _, rfl⟩ := List.mem_map.mp hj
    exact validHistElem_export h
  simp [importHistory, exportHistory, hall, decodeItems_roundtrip]

/-- An unpinned draft whose content is the single character `d`. -/
def draftNew : HistItem :=
  { id := "dn".toList, ts := "t".toList, snip := "d".toList, full := "d".toList,
    norm := [0, 0, 0, 0, 0], lead := [], top := [], ver := "v".toList,
    lex := "0".toList, pinned := none }

/-- An unpinned draft with the same content `p` as `pinnedItem0`. -/
def dupDraft : HistItem :=
  { id := "dd".toList, ts := "t".toList, snip := "p".toList, full := "p".toList,
    norm := [0, 0, 0, 0, 0], lead := [], top := [], ver := "v".toList,
    lex := "0".toList, pinned := none }

/-- An unpinned item with content `u`, older than everything else. -/
def unpinnedOld : HistItem :=
  { id := "uo".toList, ts := "t".toList, snip := "u".toList, full := "u".toList,
    norm := [0, 0, 0, 0, 0], lead := [], top := [], ver := "v".toList,
    lex := "0".toList, pinned := none }

/-- A 502-item history: one old unpinned item, then 501 pinned items. -/
def bigHistory : List HistItem := unpinnedOld :: List.replicate 501 pinnedItem0

/-- C5: when the draft is not a duplicate, `appendWithLimit` appends it and
then, while the count exceeds the cap, removes oldest-first only unpinned
items: the pinned subsequence survives untouched, the result is a subsequence
of `existing ++ [draft]`, and the loop ends either within the cap or with
every remaining item pinned (accepted overflow). -/
theorem C5_eviction_pin_exempt (existing : List HistItem) (draft : HistItem)
    (mx : Nat) (hnd : dupRecent existing draft = false) :
    (appendWithLimit existing draft mx).filter jsPinned
        = (existing ++ [draft]).filter jsPinned ∧
    (appendWithLimit existing draft mx).Sublist (existing ++ [draft]) ∧
    ((appendWithLimit existing draft mx).length ≤ mx ∨
      ∀ it ∈ appendWithLimit existing draft mx, jsPinned it = true) := by
  have hev : appendWithLimit existing draft mx = evictLoop mx (existing ++ [draft]) := by
    rw [appendWithLimit, if_neg (by simp [hnd])]
  rw [hev]
  unfold evictLoop
  exact ⟨evictLoopAux_filter _ _ _, evictLoopAux_sublist _ _ _,
    evictLoopAux_post _ _ _ le_rfl⟩

/-- Witness for C5 at a concrete fresh draft appended to an empty history. -/
theorem C5_eviction_pin_exempt_witness :
    dupRecent [] draftNew = false ∧
    ((appendWithLimit [] draftNew HISTORY_MAX_DEFAULT).filter jsPinned
        = (([] : List HistItem) ++ [draftNew]).filter jsPinned ∧
      (appendWithLimit [] draftNew HISTORY_MAX_DEFAULT).Sublist ([] ++ [draftNew]) ∧
      ((appendWithLimit [] draftNew HISTORY_MAX_DEFAULT).length ≤ HISTORY_MAX_DEFAULT ∨
        ∀ it ∈ appendWithLimit [] draftNew HISTORY_MAX_DEFAULT, jsPinned it = true)) :=
  ⟨by decide, C5_eviction_pin_exempt [] draftNew HISTORY_MAX_DEFAULT (by decide)⟩

/-- C6: both `appendWithLimit` variants silently discard a draft whose content
hash is already in their dedup window (last 10 items for the part_001 variant,
the threaded full-history hash set for the App1 variant), returning the
existing history unchanged; a non-duplicate draft is appended (and, below the
cap, the result is exactly `existing ++ [draft]`). -/
theorem C6_dedup_window (existing : List HistItem) (draft : HistItem) (mx : Nat)
    (hashSet : Finset (List Char)) :
    (dupRecent existing draft = true →
      appendWithLimit existing draft mx = existing) ∧
    (dupRecent existing draft = false →
      appendWithLimit existing draft mx = evictLoop mx (existing ++ [draft])) ∧
    (dupRecent existing draft = false → existing.length < mx →
      appendWithLimit existing draft mx = existing ++ [draft]) ∧
    (hashBase36 draft.full ∈ hashSet →
      appendWithLimitV1 existing draft mx hashSet = (existing, hashSet)) ∧
    (hashBase36 draft.full ∉ hashSet → existing.length < mx →
      appendWithLimitV1 existing draft mx hashSet
        = (existing ++ [draft], insert (hashBase36 draft.full) hashSet)) := by
  refine ⟨?_, ?_, ?_, ?_, ?_⟩
  · intro h
    rw [appendWithLimit, if_pos (by simp [h])]
  · intro h
    rw [appendWithLimit, if_neg (by simp [h])]
  · intro h hlen
    rw [appendWithLimit, if_neg (by simp [h])]
    unfold evictLoop
    refine evictLoopAux_id _ _ _ ?_
    simp only [List.length_append, List.length_cons, List.length_nil]
    omega
  · intro h
    simp only [appendWithLimitV1]
    rw [if_pos h]
  · intro h hlen
    simp only [appendWithLimitV1]
    rw [if_neg h]
    unfold evictLoopV1
    refine evictLoopV1Aux_id _ _ _ _ ?_
    simp only [List.length_append, List.length_cons, List.length_nil]
    omega

/-- Witness for C6: resubmitting the content `p` present in the last-10 window
leaves the one-item history unchanged. -/
theorem C6_dedup_window_witness :
    dupRecent [pinnedItem0] dupDraft = true ∧
    appendWithLimit [pinnedItem0] dupDraft HISTORY_MAX_DEFAULT = [pinnedItem0] :=
  ⟨by decide,
    (C6_dedup_window [pinnedItem0] dupDraft HISTORY_MAX_DEFAULT ∅).1 (by decide)⟩

/-- C8: the part_001 `commitHistory` returns the state unchanged whenever the
trimmed text is below `HISTORY_MIN_CHARS` or the hash of the 1000-character
truncation equals the last committed hash; contrapositively a commit that
modified the history implies both preconditions held. -/
theorem C8_commit_precondition (nowB36 tsISO lexHash text : List Char)
    (L : Lexicon) (rb : Bool) (st : CommitState) :
    ((jsTrim text).length < HISTORY_MIN_CHARS ∨
        st.lastSavedHash = some (hashBase36 ((jsTrim text).take 1000)) →
      commitHistory nowB36 tsISO lexHash text L rb st = st) ∧
    ((commitHistory nowB36 tsISO lexHash text L rb st).history ≠ st.history →
      HISTORY_MIN_CHARS ≤ (jsTrim text).length ∧
        st.lastSavedHash ≠ some (hashBase36 ((jsTrim text).take 1000))) := by
  have hret : (jsTrim text).length < HISTORY_MIN_CHARS ∨
      st.lastSavedHash = some (hashBase36 ((jsTrim text).take 1000)) →
      commitHistory nowB36 tsISO lexHash text L rb st = st := by
    intro h
    simp only [commitHistory]
    split_ifs with h1 h2 h3
    · rfl
    · rfl
    · rfl
    · exfalso
      rcases h with h | h
      · exact h1 h
      · exact h2 h
  refine ⟨hret, ?_⟩
  intro hne
  by_contra hcon
  rw [not_and_or, not_not] at hcon
  have hst : commitHistory nowB36 tsISO lexHash text L rb st = st := by
    refine hret ?_
    rcases hcon with h | h
    · exact Or.inl (by omega)
    · exact Or.inr h
  rw [hst] at hne
  exact hne rfl

/-- Witness for C8: a two-character input is below the 10-character minimum, so
the commit returns the empty state unchanged. -/
theorem C8_commit_precondition_witness :
    ((jsTrim "hi".toList).length < HISTORY_MIN_CHARS ∨
      (⟨[], none⟩ : CommitState).lastSavedHash
        = some (hashBase36 ((jsTrim "hi".toList).take 1000))) ∧
    commitHistory "0".toList "0".toList "0".toList "hi".toList emptyLexicon false
        ⟨[], none⟩ = ⟨[], none⟩ :=
  ⟨Or.inl (by decide),
    (C8_commit_precondition "0".toList "0".toList "0".toList "hi".toList
        emptyLexicon false ⟨[], none⟩).1 (Or.inl (by decide))⟩

/-- C10 (amended): `appendWithLimit` never reorders — the result is always a
subsequence of `existing ++ [draft]`; in the duplicate case it is exactly
`existing`, and below the cap a fresh draft lands at the tail. (As stated the
claim is false: over the cap the eviction loop can remove the draft itself
after older unpinned items, yielding a result that is neither the input list
nor a list with the draft at the tail — see the counterexample.) -/
theorem C10_append_never_reorders (existing : List HistItem) (draft : HistItem)
    (mx : Nat) :
    (appendWithLimit existing draft mx).Sublist (existing ++ [draft]) ∧
    (dupRecent existing draft = true →
      appendWithLimit existing draft mx = existing) ∧
    (dupRecent existing draft = false → existing.length < mx →
      appendWithLimit existing draft mx = existing ++ [draft]) := by
  refine ⟨?_, ?_, ?_⟩
  · by_cases h : dupRecent existing draft = true
    · rw [appendWithLimit, if_pos (by simp [h])]
      exact List.sublist_append_left existing [draft]
    · rw [appendWithLimit, if_neg (by simp [h])]
      exact evictLoopAux_sublist _ _ _
  · intro h
    rw [appendWithLimit, if_pos (by simp [h])]
  · intro h hlen
    rw [appendWithLimit, if_neg (by simp [h])]
    unfold evictLoop
    refine evictLoopAux_id _ _ _ ?_
    simp only [List.length_append, List.length_cons, List.length_nil]
    omega

/-- Witness for C10: the duplicate case hands back the input list itself. -/
theorem C10_append_never_reorders_witness :
    dupRecent [pinnedItem0] dupDraft = true ∧
    appendWithLimit [pinnedItem0] dupDraft HISTORY_MAX_DEFAULT = [pinnedItem0] ∧
    (appendWithLimit [pinnedItem0] dupDraft HISTORY_MAX_DEFAULT).Sublist
      ([pinnedItem0] ++ [dupDraft]) :=
  ⟨by decide,
    (C10_append_never_reorders [pinnedItem0] dupDraft HISTORY_MAX_DEFAULT).2.1
      (by decide),
    (C10_append_never_reorders [pinnedItem0] dupDraft HISTORY_MAX_DEFAULT).1⟩

/-- C10 counterexample: appending a fresh unpinned draft to 502 items (an old
unpinned one followed by 501 pinned ones) with the default cap of 500 evicts
first the old item and then the draft itself: the result is the 501 pinned
items — neither the input list nor any list with the draft at its tail. -/
theorem C10_counterexample :
    appendWithLimit bigHistory draftNew HISTORY_MAX_DEFAULT
        = List.replicate 501 pinnedItem0 ∧
    List.replicate 501 pinnedItem0 ≠ bigHistory ∧
    (List.replicate 501 pinnedItem0).getLast? ≠ some draftNew := by
  refine ⟨by decide, by decide, by decide⟩

/-- A lexicon with one negative-weight lexeme for 愛情. -/
def lexiconNegWeight : Lexicon := fun c =>
  match c with
  | .aijou => [{ term := "a".toList, weight := some (-(1 / 2)), categories := none }]
  | _ => []

/-- A lexicon with one positive weight far below the 0.0001 epsilon floor. -/
def lexiconTinyWeight : Lexicon := fun c =>
  match c with
  | .aijou => [{ term := "a".toList, weight := some (1 / 100000), categories := none }]
  | _ => []

unseal Rat.mul Rat.inv Rat.add Rat.sub in
/-- C1 counterexample: (a) with a negative lexeme weight the 愛情 score of the
text `a` normalizes to -500000, far outside [0, 100], while its raw score is
nonzero yet no normalized score reaches 100; (b) even with all-positive
weights, a raw maximum of 0.00001 — nonzero but below the 0.0001 epsilon
floor — normalizes to a maximum of 10, not 100. -/
theorem C1_counterexample :
    ((analyze "a".toList lexiconNegWeight false).raw .aijou = -(1 / 2) ∧
      (analyze "a".toList lexiconNegWeight false).normalized .aijou = -500000 ∧
      listMaxQ (CATS.map (analyze "a".toList lexiconNegWeight false).normalized)
        = 0) ∧
    ((analyze "a".toList lexiconTinyWeight false).raw .aijou = 1 / 100000 ∧
      listMaxQ (CATS.map (analyze "a".toList lexiconTinyWeight false).normalized)
        = 10) := by
  exact ⟨⟨by decide, by decide, by decide⟩, ⟨by decide, by decide⟩⟩

/-- C1 (amended): for every lexicon whose (defaulted) weights are all
nonnegative, every normalized score lies in [0, 100]; with all-zero raw scores
every normalized score is 0; and whenever the maximum raw score is at least
the 0.0001 epsilon floor, the maximum normalized score is exactly 100. (As
stated the claim is false — a negative weight escapes [0, 100], and a positive
maximum below 0.0001 does not normalize to 100 — see the counterexample.) -/
theorem C1_normalization_bounds (L : Lexicon) (text : List Char) (rb : Bool)
    (hL : NonnegLex L) :
    (∀ c, 0 ≤ (analyze text L rb).normalized c ∧
      (analyze text L rb).normalized c ≤ 100) ∧
    ((∀ c, (analyze text L rb).raw c = 0) →
      ∀ c, (analyze text L rb).normalized c = 0) ∧
    ((1 : ℚ) / 10000 ≤ listMaxQ (CATS.map (analyze text L rb).raw) →
      listMaxQ (CATS.map (analyze text L rb).normalized) = 100) := by
  by_cases hb : jsTrim text = []
  · have hz : analyze text L rb = zeroResult := by rw [analyze, if_pos hb]
    rw [hz]
    refine ⟨fun c => by norm_num [zeroResult], fun _ c => rfl, ?_⟩
    intro hm
    exfalso
    norm_num [zeroResult, CATS, listMaxQ] at hm
  · have ha : analyze text L rb = analyzeCore (jsTrim text) L rb := by
      rw [analyze, if_neg hb]
    set t := jsTrim text with ht
    rw [ha]
    have hnorm : ∀ c, (analyzeCore t L rb).normalized c
        = rawFinal t L rb c / maxvOf t L rb * 100 := fun c => rfl
    have hraw : (analyzeCore t L rb).raw = rawFinal t L rb := rfl
    have hub : ∀ c, (analyzeCore t L rb).normalized c ≤ 100 := by
      intro c
      rw [hnorm c]
      have h1 : rawFinal t L rb c / maxvOf t L rb ≤ 1 :=
        (div_le_one (maxv_pos t L rb)).mpr (rawFinal_le_maxv t L rb c)
      nlinarith [h1]
    refine ⟨?_, ?_, ?_⟩
    · intro c
      refine ⟨?_, hub c⟩
      rw [hnorm c]
      have h0 := rawFinal_nonneg t L rb hL c
      have hm := maxv_pos t L rb
      positivity
    · intro hz c
      rw [hnorm c]
      have : rawFinal t L rb c = 0 := by rw [← hraw]; exact hz c
      rw [this]
      ring
    · intro hM
      rw [hraw] at hM
      have hmaxv : maxvOf t L rb = listMaxQ (CATS.map (rawFinal t L rb)) :=
        max_eq_right hM
      have hmem : listMaxQ (CATS.map (rawFinal t L rb)) ∈
          CATS.map (rawFinal t L rb) :=
        listMaxQ_mem _ (by simp [CATS])
      obtain ⟨c0, _, hc0⟩ := List.mem_map.mp hmem
      have hMpos : (0 : ℚ) < listMaxQ (CATS.map (rawFinal t L rb)) :=
        lt_of_lt_of_le (by norm_num) hM
      have h100 : (analyzeCore t L rb).normalized c0 = 100 := by
        rw [hnorm c0, hc0, hmaxv, div_self (ne_of_gt hMpos)]
        ring
      refine le_antisymm ?_ ?_
      · refine listMaxQ_le 100 _ (by simp [CATS]) ?_
        intro x hx
        obtain ⟨c, _, rfl⟩ := List.mem_map.mp hx
        exact hub c
      · rw [← h100]
        exact listMaxQ_ge _ _ (List.mem_map.mpr ⟨c0, mem_CATS c0, rfl⟩)

/-- Witness for C1: the empty lexicon is nonnegative and the bounds hold for
the text `a`. -/
theorem C1_normalization_bounds_witness :
    NonnegLex emptyLexicon ∧
    ((∀ c, 0 ≤ (analyze "a".toList emptyLexicon false).normalized c ∧
        (analyze "a".toList emptyLexicon false).normalized c ≤ 100) ∧
      ((∀ c, (analyze "a".toList emptyLexicon false).raw c = 0) →
        ∀ c, (analyze "a".toList emptyLexicon false).normalized c = 0) ∧
      ((1 : ℚ) / 10000 ≤
          listMaxQ (CATS.map (analyze "a".toList emptyLexicon false).raw) →
        listMaxQ (CATS.map (analyze "a".toList emptyLexicon false).normalized)
          = 100)) :=
  ⟨by decide, C1_normalization_bounds emptyLexicon "a".toList false (by decide)⟩
